import Mathlib

/-!
Verification of the ComfyUI HuMo lipsync-suppression nodes (`nodes.py`).

The file shallowly embeds the two components of the repository:

* `HuMoLipsyncSuppress.apply` — the band editor: a keyed mapping carries a
  rank-3 embedding tensor `[T, 5, C]` under the key `"humo_audio_emb"`;
  when enabled the editor validates the shape, applies temporal EMA
  smoothing, per-band gains, optional RMS preservation, a residual blend,
  an optional global gain and an optional clamp, and rewrites the key.
* `HuMoAudioThresholdSwitcher.analyze` — the loudness gate: converts an
  audio payload to a flat sample list, computes its RMS and compares with
  a threshold (optionally inverting the resulting boolean).

Tensors are modelled with real-valued entries (the source computes in
floating point; the real-number model is exact, and the source's
NaN/Inf guard on the RMS corresponds to the empty-buffer case here).
Raising `ValueError` is modelled with `Except`.
-/

noncomputable section

/-- A dense n-dimensional tensor: a shape (list of axis lengths) together
with an entry function from multi-indices to real values.  Only indices
that are valid for the shape are meaningful. -/
structure NDTensor where
  shape : List ℕ
  entry : List ℕ → ℝ

/-- The keyed mapping (`WANVIDIMAGE_EMBEDS` dict) carrying tensors under
string keys. -/
def EmbedsMap : Type := String → Option NDTensor

/-- Errors raised by `HuMoLipsyncSuppress.apply`: the `ValueError` for a
missing `"humo_audio_emb"` key and the `ValueError` for a wrong shape. -/
inductive ApplyError where
  | missingKey
  | shapeError
  deriving DecidableEq

/-- The error raised by `HuMoAudioThresholdSwitcher._convert_to_tensor`
when the audio payload cannot be converted to a tensor. -/
inductive GateError where
  | unsupportedFormat
  deriving DecidableEq

namespace HuMoLipsyncSuppress

/-- The edit parameters of `HuMoLipsyncSuppress`.  In the source they are
class-level constants (`PRESET_GAINS`, `PRESET_EMA_BETA`, …); the spec's
data model presents them as a configuration record, so the chain is
defined over the record and the preset is its concrete instance. -/
structure EditConfig where
  gains : List ℝ
  ema_beta : ℝ
  preserve_rms : Bool
  alpha_mix : ℝ
  global_gain : ℝ
  clamp_std : ℝ

/-- The preset values of `HuMoLipsyncSuppress` (from the class body). -/
def presetConfig : EditConfig :=
  { gains := [4, 4, 0.5, 0.01, 0.01]
    ema_beta := 0.9
    preserve_rms := false
    alpha_mix := 1
    global_gain := 1
    clamp_std := 0 }

/-- View a rank-3 tensor as a function of `(t, b, c)`. -/
def xFun (x : NDTensor) : ℕ → ℕ → ℕ → ℝ :=
  fun t b c => x.entry [t, b, c]

/-- The EMA loop of `apply`: `s = x[0].clone(); out_seq = [s];` then for
each `t` in `range(1, T)`, `s = beta*s + (1-beta)*x[t]; out_seq.append(s)`.
Returns the list of stacked frames (each a function of band and channel). -/
def emaLoop (beta : ℝ) (x : ℕ → ℕ → ℕ → ℝ) (T : ℕ) : List (ℕ → ℕ → ℝ) :=
  ((List.range' 1 (T - 1)).foldl
    (fun st t =>
      let s : ℕ → ℕ → ℝ := fun b c => beta * st.1 b c + (1 - beta) * x t b c
      (s, st.2 ++ [s]))
    ((fun b c => x 0 b c), [fun b c => x 0 b c])).2

/-- The temporal-smoothing stage of `apply`: run the EMA loop when the
tensor has more than one time step and `beta > 0`, otherwise pass the
input through. -/
def smoothStage (beta : ℝ) (T : ℕ) (x : ℕ → ℕ → ℕ → ℝ) : ℕ → ℕ → ℕ → ℝ :=
  if 1 < T ∧ 0 < beta then
    fun t b c => (emaLoop beta x T).getD t (fun _ _ => 0) b c
  else x

/-- The per-band gain stage: `x_smooth * gains` with the gains vector
broadcast over time and channel (`view(1, 5, 1)`). -/
def gainStage (gains : List ℝ) (f : ℕ → ℕ → ℕ → ℝ) : ℕ → ℕ → ℕ → ℝ :=
  fun t b c => f t b c * gains.getD b 0

/-- The epsilon floor used by `_rms` and the clamp stage (`1e-6`). -/
def rmsEps : ℝ := 1e-6

/-- The mathematical per-(time, band) RMS over the channel axis:
`sqrt(mean(x^2, dim=-1))` with `C` channels, without the epsilon floor. -/
def rmsRaw (C : ℕ) (f : ℕ → ℕ → ℕ → ℝ) (t b : ℕ) : ℝ :=
  Real.sqrt ((∑ c ∈ Finset.range C, f t b c ^ 2) / C)

/-- `HuMoLipsyncSuppress._rms`: the per-(time, band) channel RMS floored
at `1e-6` (`.clamp_min(eps)`). -/
def rms (C : ℕ) (f : ℕ → ℕ → ℕ → ℝ) (t b : ℕ) : ℝ :=
  max (rmsRaw C f t b) rmsEps

/-- The RMS-preservation stage: rescale the gain-applied tensor by
`rms(orig) / rms(edited)` per (time, band). -/
def preserveStage (C : ℕ) (orig f : ℕ → ℕ → ℕ → ℝ) : ℕ → ℕ → ℕ → ℝ :=
  fun t b c => f t b c * (rms C orig t b / rms C f t b)

/-- The residual-blend stage: `(1 - alpha) * x_orig + alpha * x_edit`. -/
def blendStage (alpha : ℝ) (orig f : ℕ → ℕ → ℕ → ℝ) : ℕ → ℕ → ℕ → ℝ :=
  fun t b c => (1 - alpha) * orig t b c + alpha * f t b c

/-- The clamp stage: clamp every element into
`[mean - k*std, mean + k*std]` where mean and std are taken over the whole
tensor, std is torch's unbiased standard deviation (denominator `N - 1`)
and is floored at `1e-6`. -/
def clampStage (k : ℝ) (T C : ℕ) (f : ℕ → ℕ → ℕ → ℝ) : ℕ → ℕ → ℕ → ℝ :=
  let N : ℕ := T * 5 * C
  let mean : ℝ :=
    (∑ t ∈ Finset.range T, ∑ b ∈ Finset.range 5, ∑ c ∈ Finset.range C,
      f t b c) / N
  let std : ℝ :=
    max (Real.sqrt
      ((∑ t ∈ Finset.range T, ∑ b ∈ Finset.range 5, ∑ c ∈ Finset.range C,
        (f t b c - mean) ^ 2) / (N - 1 : ℕ))) rmsEps
  fun t b c => min (max (f t b c) (mean - k * std)) (mean + k * std)

/-- The full edit chain of `apply` on a validated `[T, 5, C]` tensor:
smoothing, band gains, optional RMS preservation, blend, global gain
(skipped when it equals 1) and optional clamp. -/
def editChain (cfg : EditConfig) (T C : ℕ) (f : ℕ → ℕ → ℕ → ℝ) :
    ℕ → ℕ → ℕ → ℝ :=
  let x_smooth := smoothStage cfg.ema_beta T f
  let x_edit := gainStage cfg.gains x_smooth
  let x_pres := if cfg.preserve_rms then preserveStage C f x_edit else x_edit
  let x_mixed := blendStage cfg.alpha_mix f x_pres
  let x_glob :=
    if cfg.global_gain ≠ 1 then
      fun t b c => x_mixed t b c * cfg.global_gain
    else x_mixed
  if 0 < cfg.clamp_std then clampStage cfg.clamp_std T C x_glob else x_glob

/-- The edited tensor written back under `"humo_audio_emb"`: same shape as
the input, entries given by the edit chain. -/
def editTensor (cfg : EditConfig) (x : NDTensor) : NDTensor :=
  { shape := x.shape
    entry := fun idx =>
      editChain cfg (x.shape.getD 0 0) (x.shape.getD 2 0) (xFun x)
        (idx.getD 0 0) (idx.getD 1 0) (idx.getD 2 0) }

/-- `HuMoLipsyncSuppress.apply`: pass the mapping through when disabled;
otherwise look up `"humo_audio_emb"` (missing-key error when absent),
validate the shape (`ndim == 3` and `shape[1] == 5`, shape error
otherwise) and rewrite the key with the edited tensor, all other keys
passing through (the source shallow-copies the dict before writing). -/
def apply (cfg : EditConfig) (image_embeds : EmbedsMap) (enabled : Bool) :
    Except ApplyError EmbedsMap :=
  if enabled = false then .ok image_embeds
  else
    match image_embeds "humo_audio_emb" with
    | none => .error .missingKey
    | some x =>
      if x.shape.length ≠ 3 ∨ x.shape.getD 1 0 ≠ 5 then .error .shapeError
      else
        .ok (fun k =>
          if k = "humo_audio_emb" then some (editTensor cfg x)
          else image_embeds k)

end HuMoLipsyncSuppress

namespace HuMoAudioThresholdSwitcher

/-- The second slot of a two-element `(sample_rate, audio_data)` payload:
`np.ndarray`, `torch.Tensor` or `list`, each carrying its (row-major
flattened) samples. -/
inductive AudioPayload where
  | aTensor (xs : List ℝ)
  | aArray (xs : List ℝ)
  | aList (xs : List ℝ)

/-- The samples carried by an `AudioPayload`. -/
def AudioPayload.samples : AudioPayload → List ℝ
  | .aTensor xs => xs
  | .aArray xs => xs
  | .aList xs => xs

/-- The audio input shapes `_convert_to_tensor` distinguishes at runtime:
a torch tensor, a numpy array, a two-element `(sample_rate, data)` pair
whose second slot is array-like, any other list/tuple of samples, another
value that `torch.tensor` accepts, or an unconvertible value. -/
inductive Audio where
  | tens (xs : List ℝ)
  | arr (xs : List ℝ)
  | pairRate (rate : ℝ) (data : AudioPayload)
  | flat (xs : List ℝ)
  | otherConvertible (xs : List ℝ)
  | unconvertible

/-- `HuMoAudioThresholdSwitcher._convert_to_tensor`: normalize the audio
payload to its samples, discarding the sample-rate slot of a pair, and
fail with the unsupported-format `ValueError` otherwise.  (The later
`flatten()` of `_calculate_rms` is reflected in the sample lists being
the row-major flattened contents.) -/
def convertToTensor : Audio → Except GateError (List ℝ)
  | .tens xs => .ok xs
  | .arr xs => .ok xs
  | .pairRate _ data => .ok data.samples
  | .flat xs => .ok xs
  | .otherConvertible xs => .ok xs
  | .unconvertible => .error .unsupportedFormat

/-- `HuMoAudioThresholdSwitcher._calculate_rms`: flatten, compute
`sqrt(mean(samples^2))`, and return `0.0` when the result is not finite.
Over the reals the only degenerate case is the empty buffer (torch's
`mean` of an empty tensor is NaN), modelled by the emptiness guard. -/
def calculateRMS (xs : List ℝ) : ℝ :=
  if xs = [] then 0 else Real.sqrt ((xs.map (fun v => v ^ 2)).sum / xs.length)

/-- `HuMoAudioThresholdSwitcher.analyze`: convert the audio, compute its
RMS, decide silence by `rms < threshold`, and invert the boolean when
requested. -/
def analyze (audio : Audio) (threshold : ℝ) (invert : Bool) :
    Except GateError Bool :=
  match convertToTensor audio with
  | .error e => .error e
  | .ok xs =>
    let rms := calculateRMS xs
    let is_silent : Bool := decide (rms < threshold)
    .ok (if invert then !is_silent else is_silent)

end HuMoAudioThresholdSwitcher

namespace HuMoLipsyncSuppress

/-- The empty mapping: no key at all. -/
def emptyEmbeds : EmbedsMap := fun _ => none

/-- A concrete valid tensor of shape `[1, 5, 1]`, all entries `1`. -/
def xOnes : NDTensor := { shape := [1, 5, 1], entry := fun _ => 1 }

/-- A mapping carrying `xOnes` under `"humo_audio_emb"`. -/
def mOnes : EmbedsMap :=
  fun k => if k = "humo_audio_emb" then some xOnes else none

/-- The mapping `apply` produces from `mOnes` with the preset config. -/
def mOnesOut : EmbedsMap :=
  fun k =>
    if k = "humo_audio_emb" then some (editTensor presetConfig xOnes)
    else mOnes k

/-- A concrete tensor of the spec's bad shape `[10, 3, 1280]`. -/
def xBadShape : NDTensor := { shape := [10, 3, 1280], entry := fun _ => 0 }

/-- A mapping carrying the bad-shape tensor under `"humo_audio_emb"`. -/
def mBadShape : EmbedsMap :=
  fun k => if k = "humo_audio_emb" then some xBadShape else none

/-- The claim's reading of the smoothing stage: the scan `s` initialized
to `x[0]`, with `s ← β·s + (1−β)·x[t]` for each `t ≥ 1`, the output at
`t` being that `s` (and `x[0]` itself at `t = 0`).  Stated per band and
channel as a recurrence over the time index. -/
def emaScan (beta : ℝ) (g : ℕ → ℝ) : ℕ → ℝ
  | 0 => g 0
  | t + 1 => beta * emaScan beta g t + (1 - beta) * g (t + 1)

/-- A sample signal used to witness the smoothing characertization. -/
def sampleSignal : ℕ → ℕ → ℕ → ℝ := fun t _ _ => (t : ℝ)

/-- The state of the EMA loop after folding over `[1, …, n]`: the running
frame is the scan at `n` and the accumulated list holds the scans at
`0, …, n`. -/
lemma emaLoop_foldl (beta : ℝ) (x : ℕ → ℕ → ℕ → ℝ) (n : ℕ) :
    ((List.range' 1 n).foldl
      (fun st t =>
        let s : ℕ → ℕ → ℝ := fun b c => beta * st.1 b c + (1 - beta) * x t b c
        (s, st.2 ++ [s]))
      ((fun b c => x 0 b c), [fun b c => x 0 b c])) =
    ((fun b c => emaScan beta (fun u => x u b c) n),
      (List.range (n + 1)).map
        (fun t => fun b c => emaScan beta (fun u => x u b c) t)) := by
  induction n with
  | zero => rfl
  | succ n ih =>
    rw [List.range'_concat, List.foldl_append, ih]
    have h1 : 1 + 1 * n = n + 1 := by omega
    rw [h1]
    simp only [List.foldl_cons, List.foldl_nil, Prod.mk.injEq]
    constructor
    · funext b c
      simp [emaScan]
    · rw [List.range_succ (n + 1), List.map_append]
      congr 1

/-- The EMA loop produces exactly the list of scan values `0, …, T-1`
when the tensor has at least one time step. -/
lemma emaLoop_eq_map (beta : ℝ) (x : ℕ → ℕ → ℕ → ℝ) (T : ℕ)
    (hT : 1 ≤ T) :
    emaLoop beta x T =
      (List.range T).map
        (fun t => fun b c => emaScan beta (fun u => x u b c) t) := by
  unfold emaLoop
  rw [emaLoop_foldl]
  have h : T - 1 + 1 = T := by omega
  rw [h]

end HuMoLipsyncSuppress

/-- C2: when the tensor has more than one time step and `β > 0`, the
smoothing stage computes, per band and channel, the scan initialized to
`x[0]` with `s ← β·s + (1−β)·x[t]` (output at `t = 0` being `x[0]`);
with exactly one time step or `β = 0` the stage is the identity. -/
theorem smoothStage_is_causal_scan (beta : ℝ) (T : ℕ)
    (x : ℕ → ℕ → ℕ → ℝ) (t b c : ℕ) :
    (1 < T → 0 < beta → t < T →
      HuMoLipsyncSuppress.smoothStage beta T x t b c =
        HuMoLipsyncSuppress.emaScan beta (fun u => x u b c) t) ∧
    (1 < T → 0 < beta →
      HuMoLipsyncSuppress.smoothStage beta T x 0 b c = x 0 b c) ∧
    ((T = 1 ∨ beta = 0) →
      HuMoLipsyncSuppress.smoothStage beta T x t b c = x t b c) := by
  have key : 1 < T → 0 < beta → ∀ u, u < T →
      HuMoLipsyncSuppress.smoothStage beta T x u b c =
        HuMoLipsyncSuppress.emaScan beta (fun v => x v b c) u := by
    intro hT hb u hu
    unfold HuMoLipsyncSuppress.smoothStage
    rw [if_pos ⟨hT, hb⟩]
    rw [HuMoLipsyncSuppress.emaLoop_eq_map beta x T (by omega)]
    rw [List.getD_eq_getElem?_getD, List.getElem?_map,
      List.getElem?_range hu]
    rfl
  refine ⟨fun hT hb ht => key hT hb t ht, fun hT hb => key hT hb 0 (by omega),
    fun hid => ?_⟩
  unfold HuMoLipsyncSuppress.smoothStage
  rw [if_neg ?_]
  rintro ⟨hT, hb⟩
  rcases hid with h1 | h0
  · omega
  · rw [h0] at hb
    exact lt_irrefl 0 hb

/-- Witness for C2 at `T = 2`, `β = 1/2`, `t = 1` (scan case) and
`β = 0` (identity case) on a sample signal. -/
theorem smoothStage_is_causal_scan_witness :
    (1 < 2 ∧ (0 : ℝ) < 1 / 2 ∧
      HuMoLipsyncSuppress.smoothStage (1 / 2) 2
          HuMoLipsyncSuppress.sampleSignal 1 0 0 =
        HuMoLipsyncSuppress.emaScan (1 / 2)
          (fun u => HuMoLipsyncSuppress.sampleSignal u 0 0) 1) ∧
    HuMoLipsyncSuppress.smoothStage 0 2
        HuMoLipsyncSuppress.sampleSignal 1 0 0 =
      HuMoLipsyncSuppress.sampleSignal 1 0 0 :=
  ⟨⟨by norm_num, by norm_num,
      (smoothStage_is_causal_scan (1 / 2) 2
        HuMoLipsyncSuppress.sampleSignal 1 0 0).1
        (by norm_num) (by norm_num) (by norm_num)⟩,
    (smoothStage_is_causal_scan 0 2
      HuMoLipsyncSuppress.sampleSignal 1 0 0).2.2 (Or.inr rfl)⟩

/-- Unfolding lemma: with `enabled = true` and the key present, `apply`
reduces to the shape check. -/
lemma apply_true_unfold (cfg : HuMoLipsyncSuppress.EditConfig)
    (m : EmbedsMap) (x : NDTensor) (hm : m "humo_audio_emb" = some x) :
    HuMoLipsyncSuppress.apply cfg m true =
      if x.shape.length ≠ 3 ∨ x.shape.getD 1 0 ≠ 5 then .error .shapeError
      else
        .ok (fun k =>
          if k = "humo_audio_emb" then
            some (HuMoLipsyncSuppress.editTensor cfg x)
          else m k) := by
  unfold HuMoLipsyncSuppress.apply
  rw [if_neg (by simp), hm]

/-- C1: with `enabled = false`, `apply` returns the input mapping
unchanged, for every configuration and every mapping. -/
theorem apply_disabled_identity (cfg : HuMoLipsyncSuppress.EditConfig)
    (m : EmbedsMap) :
    HuMoLipsyncSuppress.apply cfg m false = .ok m := by
  simp [HuMoLipsyncSuppress.apply]

/-- C9: with `enabled = true` and no `"humo_audio_emb"` key in the
mapping, `apply` fails with the missing-key error (no fallback value is
produced). -/
theorem apply_missing_key (cfg : HuMoLipsyncSuppress.EditConfig)
    (m : EmbedsMap) (hm : m "humo_audio_emb" = none) :
    HuMoLipsyncSuppress.apply cfg m true = .error .missingKey := by
  simp [HuMoLipsyncSuppress.apply, hm]

/-- Witness for C9: the empty mapping misses the key and errors. -/
theorem apply_missing_key_witness :
    HuMoLipsyncSuppress.emptyEmbeds "humo_audio_emb" = none ∧
      HuMoLipsyncSuppress.apply HuMoLipsyncSuppress.presetConfig
        HuMoLipsyncSuppress.emptyEmbeds true = .error .missingKey :=
  ⟨rfl, apply_missing_key HuMoLipsyncSuppress.presetConfig
    HuMoLipsyncSuppress.emptyEmbeds rfl⟩

/-- C10: with `enabled = false` no validation runs: even when the key is
absent or the tensor under it has wrong rank or band count, `apply`
returns the input unchanged and raises no error. -/
theorem apply_disabled_skips_validation
    (cfg : HuMoLipsyncSuppress.EditConfig) (m : EmbedsMap)
    (_hbad : m "humo_audio_emb" = none ∨
      ∃ x, m "humo_audio_emb" = some x ∧
        (x.shape.length ≠ 3 ∨ x.shape.getD 1 0 ≠ 5)) :
    HuMoLipsyncSuppress.apply cfg m false = .ok m ∧
      ∀ e, HuMoLipsyncSuppress.apply cfg m false ≠ .error e := by
  refine ⟨by simp [HuMoLipsyncSuppress.apply], fun e h => ?_⟩
  simp [HuMoLipsyncSuppress.apply] at h

/-- Witness for C10: disabled `apply` on a mapping missing the key, and
on a mapping with a wrong-shaped tensor, both succeed unchanged. -/
theorem apply_disabled_skips_validation_witness :
    (HuMoLipsyncSuppress.apply HuMoLipsyncSuppress.presetConfig
        HuMoLipsyncSuppress.emptyEmbeds false =
        .ok HuMoLipsyncSuppress.emptyEmbeds ∧
      ∀ e, HuMoLipsyncSuppress.apply HuMoLipsyncSuppress.presetConfig
        HuMoLipsyncSuppress.emptyEmbeds false ≠ .error e) ∧
    (HuMoLipsyncSuppress.apply HuMoLipsyncSuppress.presetConfig
        HuMoLipsyncSuppress.mBadShape false =
        .ok HuMoLipsyncSuppress.mBadShape ∧
      ∀ e, HuMoLipsyncSuppress.apply HuMoLipsyncSuppress.presetConfig
        HuMoLipsyncSuppress.mBadShape false ≠ .error e) :=
  ⟨apply_disabled_skips_validation HuMoLipsyncSuppress.presetConfig
      HuMoLipsyncSuppress.emptyEmbeds (Or.inl rfl),
    apply_disabled_skips_validation HuMoLipsyncSuppress.presetConfig
      HuMoLipsyncSuppress.mBadShape
      (Or.inr ⟨HuMoLipsyncSuppress.xBadShape, by
        constructor
        · simp [HuMoLipsyncSuppress.mBadShape]
        · right
          simp [HuMoLipsyncSuppress.xBadShape]⟩)⟩

/-- C4: with `enabled = true` and the key present, `apply` raises the
shape error exactly when the tensor is not rank 3 with second axis 5, and
on success the rewritten tensor has the input's shape. -/
theorem apply_shape_check (cfg : HuMoLipsyncSuppress.EditConfig)
    (m : EmbedsMap) (x : NDTensor) (hm : m "humo_audio_emb" = some x) :
    (HuMoLipsyncSuppress.apply cfg m true = .error .shapeError ↔
      (x.shape.length ≠ 3 ∨ x.shape.getD 1 0 ≠ 5)) ∧
    (∀ m', HuMoLipsyncSuppress.apply cfg m true = .ok m' →
      ∃ y, m' "humo_audio_emb" = some y ∧ y.shape = x.shape) := by
  have hu := apply_true_unfold cfg m x hm
  by_cases hs : x.shape.length ≠ 3 ∨ x.shape.getD 1 0 ≠ 5
  · rw [if_pos hs] at hu
    refine ⟨⟨fun _ => hs, fun _ => hu⟩, fun m' h => ?_⟩
    rw [hu] at h
    simp at h
  · rw [if_neg hs] at hu
    refine ⟨⟨fun h => ?_, fun h => absurd h hs⟩, fun m' h => ?_⟩
    · rw [hu] at h
      simp at h
    · rw [hu] at h
      have hinj := Except.ok.inj h
      refine ⟨HuMoLipsyncSuppress.editTensor cfg x, ?_, rfl⟩
      rw [← hinj]
      simp

/-- Witness for C4: the spec's example shape `[10, 3, 1280]` raises the
shape error. -/
theorem apply_shape_check_witness :
    HuMoLipsyncSuppress.mBadShape "humo_audio_emb" =
        some HuMoLipsyncSuppress.xBadShape ∧
      HuMoLipsyncSuppress.apply HuMoLipsyncSuppress.presetConfig
        HuMoLipsyncSuppress.mBadShape true = .error .shapeError :=
  ⟨by simp [HuMoLipsyncSuppress.mBadShape],
    (apply_shape_check HuMoLipsyncSuppress.presetConfig
        HuMoLipsyncSuppress.mBadShape HuMoLipsyncSuppress.xBadShape
        (by simp [HuMoLipsyncSuppress.mBadShape])).1.mpr
      (by right; simp [HuMoLipsyncSuppress.xBadShape])⟩

/-- C8: whenever enabled `apply` succeeds, every key other than
`"humo_audio_emb"` maps to exactly the same entry as in the input
mapping (the dict is shallow-copied; only the one key is rewritten). -/
theorem apply_preserves_other_keys (cfg : HuMoLipsyncSuppress.EditConfig)
    (m m' : EmbedsMap)
    (h : HuMoLipsyncSuppress.apply cfg m true = .ok m')
    (k : String) (hk : k ≠ "humo_audio_emb") : m' k = m k := by
  cases hm : m "humo_audio_emb" with
  | none => simp [HuMoLipsyncSuppress.apply, hm] at h
  | some x =>
    rw [apply_true_unfold cfg m x hm] at h
    by_cases hs : x.shape.length ≠ 3 ∨ x.shape.getD 1 0 ≠ 5
    · rw [if_pos hs] at h; simp at h
    · rw [if_neg hs] at h
      rw [← Except.ok.inj h]
      simp [hk]

/-- Witness for C8: a concrete successful edit leaves the other keys of
the mapping untouched. -/
theorem apply_preserves_other_keys_witness :
    HuMoLipsyncSuppress.apply HuMoLipsyncSuppress.presetConfig
        HuMoLipsyncSuppress.mOnes true = .ok HuMoLipsyncSuppress.mOnesOut ∧
      HuMoLipsyncSuppress.mOnesOut "cond_latents" =
        HuMoLipsyncSuppress.mOnes "cond_latents" := by
  have hEval : HuMoLipsyncSuppress.apply HuMoLipsyncSuppress.presetConfig
      HuMoLipsyncSuppress.mOnes true = .ok HuMoLipsyncSuppress.mOnesOut := by
    simp [HuMoLipsyncSuppress.apply, HuMoLipsyncSuppress.mOnes,
      HuMoLipsyncSuppress.xOnes]
    rfl
  exact ⟨hEval, apply_preserves_other_keys HuMoLipsyncSuppress.presetConfig
    HuMoLipsyncSuppress.mOnes HuMoLipsyncSuppress.mOnesOut hEval
    "cond_latents" (by decide)⟩

namespace HuMoLipsyncSuppress

/-- A configuration with `α = 0` but global gain `2` (all other stages
neutral). -/
def cfgAlphaZeroGainTwo : EditConfig :=
  { gains := [1, 1, 1, 1, 1]
    ema_beta := 0
    preserve_rms := false
    alpha_mix := 0
    global_gain := 2
    clamp_std := 0 }

/-- A configuration with `α = 0`, neutral global gain, but clamp width
`1/2`. -/
def cfgAlphaZeroClampHalf : EditConfig :=
  { gains := [1, 1, 1, 1, 1]
    ema_beta := 0
    preserve_rms := false
    alpha_mix := 0
    global_gain := 1
    clamp_std := 1 / 2 }

/-- A preset-like configuration with `α = 0`, neutral global gain and no
clamp (RMS preservation deliberately on). -/
def cfgBlendBack : EditConfig :=
  { gains := [4, 4, 0.5, 0.01, 0.01]
    ema_beta := 0.9
    preserve_rms := true
    alpha_mix := 0
    global_gain := 1
    clamp_std := 0 }

/-- A `[1, 5, 1]` tensor whose band values are `2, 2, -2, -2, 0` (mean
`0`, unbiased standard deviation `2`). -/
def xSpread : NDTensor :=
  { shape := [1, 5, 1]
    entry := fun idx => ([2, 2, -2, -2, 0] : List ℝ).getD (idx.getD 1 0) 0 }

end HuMoLipsyncSuppress

/-- Counterexample to C3 as stated: with `α = 0`, the edit is not the
identity for every value of the remaining parameters — a global gain of
`2` doubles the all-ones tensor, and a clamp width of `1/2` truncates the
spread tensor's first entry from `2` to `1`. -/
theorem alpha_zero_identity_cex :
    HuMoLipsyncSuppress.cfgAlphaZeroGainTwo.alpha_mix = 0 ∧
    HuMoLipsyncSuppress.apply HuMoLipsyncSuppress.cfgAlphaZeroGainTwo
        HuMoLipsyncSuppress.mOnes true =
      .ok (fun k =>
        if k = "humo_audio_emb" then
          some (HuMoLipsyncSuppress.editTensor
            HuMoLipsyncSuppress.cfgAlphaZeroGainTwo HuMoLipsyncSuppress.xOnes)
        else HuMoLipsyncSuppress.mOnes k) ∧
    (HuMoLipsyncSuppress.editTensor HuMoLipsyncSuppress.cfgAlphaZeroGainTwo
        HuMoLipsyncSuppress.xOnes).entry [0, 0, 0] = 2 ∧
    HuMoLipsyncSuppress.xOnes.entry [0, 0, 0] = 1 ∧
    HuMoLipsyncSuppress.cfgAlphaZeroClampHalf.alpha_mix = 0 ∧
    (HuMoLipsyncSuppress.editTensor HuMoLipsyncSuppress.cfgAlphaZeroClampHalf
        HuMoLipsyncSuppress.xSpread).entry [0, 0, 0] = 1 ∧
    HuMoLipsyncSuppress.xSpread.entry [0, 0, 0] = 2 := by
  refine ⟨rfl, ?_, ?_, rfl, rfl, ?_, rfl⟩
  · rw [apply_true_unfold HuMoLipsyncSuppress.cfgAlphaZeroGainTwo
      HuMoLipsyncSuppress.mOnes HuMoLipsyncSuppress.xOnes
      (by simp [HuMoLipsyncSuppress.mOnes])]
    rw [if_neg (by simp [HuMoLipsyncSuppress.xOnes])]
  · norm_num [HuMoLipsyncSuppress.editTensor, HuMoLipsyncSuppress.editChain,
      HuMoLipsyncSuppress.smoothStage, HuMoLipsyncSuppress.gainStage,
      HuMoLipsyncSuppress.blendStage, HuMoLipsyncSuppress.xFun,
      HuMoLipsyncSuppress.xOnes, HuMoLipsyncSuppress.cfgAlphaZeroGainTwo]
  · have h4 : Real.sqrt 4 = 2 := by
      rw [show (4 : ℝ) = 2 ^ 2 by norm_num,
        Real.sqrt_sq (by norm_num : (0 : ℝ) ≤ 2)]
    norm_num [HuMoLipsyncSuppress.editTensor, HuMoLipsyncSuppress.editChain,
      HuMoLipsyncSuppress.smoothStage, HuMoLipsyncSuppress.gainStage,
      HuMoLipsyncSuppress.blendStage, HuMoLipsyncSuppress.clampStage,
      HuMoLipsyncSuppress.rmsEps, HuMoLipsyncSuppress.xFun,
      HuMoLipsyncSuppress.xSpread, HuMoLipsyncSuppress.cfgAlphaZeroClampHalf,
      Finset.sum_range_succ, h4]

/-- C3 amended: with `α = 0`, a neutral global gain (`1`) and the clamp
disabled (`0`), enabled `apply` rewrites the key with a tensor equal to
the input tensor, regardless of the band gains, the smoothing factor and
the RMS-preservation flag. -/
theorem alpha_zero_blend_back (cfg : HuMoLipsyncSuppress.EditConfig)
    (m : EmbedsMap) (x : NDTensor)
    (ha : cfg.alpha_mix = 0) (hg : cfg.global_gain = 1)
    (hc : cfg.clamp_std = 0) (hm : m "humo_audio_emb" = some x)
    (hs : x.shape.length = 3 ∧ x.shape.getD 1 0 = 5) :
    HuMoLipsyncSuppress.apply cfg m true =
      .ok (fun k =>
        if k = "humo_audio_emb" then
          some (HuMoLipsyncSuppress.editTensor cfg x)
        else m k) ∧
    (HuMoLipsyncSuppress.editTensor cfg x).shape = x.shape ∧
    ∀ t b c, (HuMoLipsyncSuppress.editTensor cfg x).entry [t, b, c] =
      x.entry [t, b, c] := by
  refine ⟨?_, rfl, fun t b c => ?_⟩
  · rw [apply_true_unfold cfg m x hm]
    rw [if_neg (by push_neg; exact hs)]
  · simp only [HuMoLipsyncSuppress.editTensor, HuMoLipsyncSuppress.editChain,
      ha, hg, hc]
    norm_num [HuMoLipsyncSuppress.blendStage, HuMoLipsyncSuppress.xFun]

/-- Witness for C3 amended: a preset-like configuration with `α = 0`
(RMS preservation switched on) leaves the all-ones tensor unchanged. -/
theorem alpha_zero_blend_back_witness :
    HuMoLipsyncSuppress.cfgBlendBack.alpha_mix = 0 ∧
    HuMoLipsyncSuppress.cfgBlendBack.global_gain = 1 ∧
    HuMoLipsyncSuppress.cfgBlendBack.clamp_std = 0 ∧
    HuMoLipsyncSuppress.mOnes "humo_audio_emb" =
      some HuMoLipsyncSuppress.xOnes ∧
    (HuMoLipsyncSuppress.apply HuMoLipsyncSuppress.cfgBlendBack
        HuMoLipsyncSuppress.mOnes true =
      .ok (fun k =>
        if k = "humo_audio_emb" then
          some (HuMoLipsyncSuppress.editTensor
            HuMoLipsyncSuppress.cfgBlendBack HuMoLipsyncSuppress.xOnes)
        else HuMoLipsyncSuppress.mOnes k) ∧
    (HuMoLipsyncSuppress.editTensor HuMoLipsyncSuppress.cfgBlendBack
        HuMoLipsyncSuppress.xOnes).shape = HuMoLipsyncSuppress.xOnes.shape ∧
    ∀ t b c, (HuMoLipsyncSuppress.editTensor HuMoLipsyncSuppress.cfgBlendBack
        HuMoLipsyncSuppress.xOnes).entry [t, b, c] =
      HuMoLipsyncSuppress.xOnes.entry [t, b, c]) :=
  ⟨rfl, rfl, rfl, by simp [HuMoLipsyncSuppress.mOnes],
    alpha_zero_blend_back HuMoLipsyncSuppress.cfgBlendBack
      HuMoLipsyncSuppress.mOnes HuMoLipsyncSuppress.xOnes rfl rfl rfl
      (by simp [HuMoLipsyncSuppress.mOnes])
      (by simp [HuMoLipsyncSuppress.xOnes])⟩

namespace HuMoLipsyncSuppress

/-- A configuration with RMS preservation on, neutral gains, `β = 1/2`,
full blend. -/
def cfgPres : EditConfig :=
  { gains := [1, 1, 1, 1, 1]
    ema_beta := 1 / 2
    preserve_rms := true
    alpha_mix := 1
    global_gain := 1
    clamp_std := 0 }

/-- A `[2, 5, 1]` tensor whose entries are `1` at `t = 0` and `-1` at
`t = 1`: with `β = 1/2` its smoothed value at `t = 1` is exactly `0`. -/
def xFlip : NDTensor :=
  { shape := [2, 5, 1]
    entry := fun idx => if idx.getD 0 0 = 0 then 1 else -1 }

/-- The gain-stage output of the chain on `xFlip` under `cfgPres`. -/
def gainSmoothFlip : ℕ → ℕ → ℕ → ℝ :=
  gainStage cfgPres.gains (smoothStage cfgPres.ema_beta 2 (xFun xFlip))

/-- The RMS of a constant-factor rescale: rescaling a tensor by a
per-(time, band) factor multiplies its channel RMS by the factor's
absolute value. -/
lemma rmsRaw_preserveStage (C : ℕ) (orig f : ℕ → ℕ → ℕ → ℝ) (t b : ℕ) :
    rmsRaw C (preserveStage C orig f) t b =
      |rms C orig t b / rms C f t b| * rmsRaw C f t b := by
  unfold preserveStage rmsRaw
  have hsum : (∑ c ∈ Finset.range C,
        (f t b c * (rms C orig t b / rms C f t b)) ^ 2) =
      (rms C orig t b / rms C f t b) ^ 2 *
        ∑ c ∈ Finset.range C, f t b c ^ 2 := by
    rw [Finset.mul_sum]
    exact Finset.sum_congr rfl fun c _ => by ring
  rw [hsum, mul_div_assoc, Real.sqrt_mul (sq_nonneg _), Real.sqrt_sq_eq_abs]

end HuMoLipsyncSuppress

/-- Counterexample to C5 as stated: on `xFlip` under `cfgPres` the
gain-stage RMS at `(t, b) = (1, 0)` collapses to `0`, the epsilon floor
takes over in the divisor, and the RMS after the preservation step is `0`
while the original RMS is `1`. -/
theorem rms_preservation_cex :
    HuMoLipsyncSuppress.cfgPres.preserve_rms = true ∧
    HuMoLipsyncSuppress.rmsRaw 1
      (HuMoLipsyncSuppress.preserveStage 1
        (HuMoLipsyncSuppress.xFun HuMoLipsyncSuppress.xFlip)
        HuMoLipsyncSuppress.gainSmoothFlip) 1 0 = 0 ∧
    HuMoLipsyncSuppress.rmsRaw 1
      (HuMoLipsyncSuppress.xFun HuMoLipsyncSuppress.xFlip) 1 0 = 1 ∧
    HuMoLipsyncSuppress.rmsRaw 1
      (HuMoLipsyncSuppress.preserveStage 1
        (HuMoLipsyncSuppress.xFun HuMoLipsyncSuppress.xFlip)
        HuMoLipsyncSuppress.gainSmoothFlip) 1 0 ≠
      HuMoLipsyncSuppress.rmsRaw 1
        (HuMoLipsyncSuppress.xFun HuMoLipsyncSuppress.xFlip) 1 0 := by
  have hsm : HuMoLipsyncSuppress.smoothStage
      HuMoLipsyncSuppress.cfgPres.ema_beta 2
      (HuMoLipsyncSuppress.xFun HuMoLipsyncSuppress.xFlip) 1 0 0 = 0 := by
    unfold HuMoLipsyncSuppress.smoothStage
    rw [if_pos (by constructor <;> norm_num [HuMoLipsyncSuppress.cfgPres])]
    rw [HuMoLipsyncSuppress.emaLoop_eq_map
      HuMoLipsyncSuppress.cfgPres.ema_beta
      (HuMoLipsyncSuppress.xFun HuMoLipsyncSuppress.xFlip) 2 (by norm_num)]
    rw [List.getD_eq_getElem?_getD, List.getElem?_map,
      List.getElem?_range (by norm_num : (1 : ℕ) < 2)]
    norm_num [HuMoLipsyncSuppress.emaScan, HuMoLipsyncSuppress.xFun,
      HuMoLipsyncSuppress.xFlip, HuMoLipsyncSuppress.cfgPres]
  have hg : HuMoLipsyncSuppress.gainSmoothFlip 1 0 0 = 0 := by
    unfold HuMoLipsyncSuppress.gainSmoothFlip HuMoLipsyncSuppress.gainStage
    rw [hsm]
    norm_num [HuMoLipsyncSuppress.cfgPres]
  have hf1 : HuMoLipsyncSuppress.rmsRaw 1
      (HuMoLipsyncSuppress.xFun HuMoLipsyncSuppress.xFlip) 1 0 = 1 := by
    unfold HuMoLipsyncSuppress.rmsRaw
    rw [Finset.sum_range_one]
    norm_num [HuMoLipsyncSuppress.xFun, HuMoLipsyncSuppress.xFlip]
  have hp0 : HuMoLipsyncSuppress.rmsRaw 1
      (HuMoLipsyncSuppress.preserveStage 1
        (HuMoLipsyncSuppress.xFun HuMoLipsyncSuppress.xFlip)
        HuMoLipsyncSuppress.gainSmoothFlip) 1 0 = 0 := by
    unfold HuMoLipsyncSuppress.rmsRaw HuMoLipsyncSuppress.preserveStage
    rw [Finset.sum_range_one, hg]
    norm_num
  exact ⟨rfl, hp0, hf1, by rw [hp0, hf1]; norm_num⟩

/-- C5 amended: with the RMS-preservation flag set, at every (time, band)
whose gain-stage channel RMS and original channel RMS both reach the
`1e-6` floor, the channel RMS after the preservation step exactly equals
the original channel RMS (below the floor the rescale is capped and the
equality can fail). -/
theorem rms_preservation_amended (cfg : HuMoLipsyncSuppress.EditConfig)
    (T C : ℕ) (f : ℕ → ℕ → ℕ → ℝ) (t b : ℕ)
    (hp : cfg.preserve_rms = true)
    (hge : HuMoLipsyncSuppress.rmsEps ≤
      HuMoLipsyncSuppress.rmsRaw C
        (HuMoLipsyncSuppress.gainStage cfg.gains
          (HuMoLipsyncSuppress.smoothStage cfg.ema_beta T f)) t b)
    (hfe : HuMoLipsyncSuppress.rmsEps ≤
      HuMoLipsyncSuppress.rmsRaw C f t b) :
    HuMoLipsyncSuppress.rmsRaw C
      (if cfg.preserve_rms = true then
        HuMoLipsyncSuppress.preserveStage C f
          (HuMoLipsyncSuppress.gainStage cfg.gains
            (HuMoLipsyncSuppress.smoothStage cfg.ema_beta T f))
      else
        HuMoLipsyncSuppress.gainStage cfg.gains
          (HuMoLipsyncSuppress.smoothStage cfg.ema_beta T f)) t b =
    HuMoLipsyncSuppress.rmsRaw C f t b := by
  rw [if_pos hp, HuMoLipsyncSuppress.rmsRaw_preserveStage]
  have hepos : (0 : ℝ) < HuMoLipsyncSuppress.rmsEps := by
    norm_num [HuMoLipsyncSuppress.rmsEps]
  have hgr : HuMoLipsyncSuppress.rms C
      (HuMoLipsyncSuppress.gainStage cfg.gains
        (HuMoLipsyncSuppress.smoothStage cfg.ema_beta T f)) t b =
      HuMoLipsyncSuppress.rmsRaw C
        (HuMoLipsyncSuppress.gainStage cfg.gains
          (HuMoLipsyncSuppress.smoothStage cfg.ema_beta T f)) t b :=
    max_eq_left hge
  have hfr : HuMoLipsyncSuppress.rms C f t b =
      HuMoLipsyncSuppress.rmsRaw C f t b := max_eq_left hfe
  rw [hgr, hfr]
  have hg0 : HuMoLipsyncSuppress.rmsRaw C
      (HuMoLipsyncSuppress.gainStage cfg.gains
        (HuMoLipsyncSuppress.smoothStage cfg.ema_beta T f)) t b ≠ 0 :=
    ne_of_gt (lt_of_lt_of_le hepos hge)
  rw [abs_of_nonneg (div_nonneg (le_trans (le_of_lt hepos) hfe)
    (le_trans (le_of_lt hepos) hge))]
  exact div_mul_cancel₀ _ hg0

/-- Witness for C5 amended: `cfgBlendBack` (preservation on, gains
headed by `4`) on the all-ones `[1, 5, 1]` tensor, where the gain-stage
RMS is `4` and the original RMS is `1`, both above the floor. -/
theorem rms_preservation_amended_witness :
    HuMoLipsyncSuppress.cfgBlendBack.preserve_rms = true ∧
    HuMoLipsyncSuppress.rmsEps ≤
      HuMoLipsyncSuppress.rmsRaw 1
        (HuMoLipsyncSuppress.gainStage HuMoLipsyncSuppress.cfgBlendBack.gains
          (HuMoLipsyncSuppress.smoothStage
            HuMoLipsyncSuppress.cfgBlendBack.ema_beta 1
            (HuMoLipsyncSuppress.xFun HuMoLipsyncSuppress.xOnes))) 0 0 ∧
    HuMoLipsyncSuppress.rmsEps ≤
      HuMoLipsyncSuppress.rmsRaw 1
        (HuMoLipsyncSuppress.xFun HuMoLipsyncSuppress.xOnes) 0 0 ∧
    HuMoLipsyncSuppress.rmsRaw 1
      (if HuMoLipsyncSuppress.cfgBlendBack.preserve_rms = true then
        HuMoLipsyncSuppress.preserveStage 1
          (HuMoLipsyncSuppress.xFun HuMoLipsyncSuppress.xOnes)
          (HuMoLipsyncSuppress.gainStage
            HuMoLipsyncSuppress.cfgBlendBack.gains
            (HuMoLipsyncSuppress.smoothStage
              HuMoLipsyncSuppress.cfgBlendBack.ema_beta 1
              (HuMoLipsyncSuppress.xFun HuMoLipsyncSuppress.xOnes)))
      else
        HuMoLipsyncSuppress.gainStage HuMoLipsyncSuppress.cfgBlendBack.gains
          (HuMoLipsyncSuppress.smoothStage
            HuMoLipsyncSuppress.cfgBlendBack.ema_beta 1
            (HuMoLipsyncSuppress.xFun HuMoLipsyncSuppress.xOnes))) 0 0 =
    HuMoLipsyncSuppress.rmsRaw 1
      (HuMoLipsyncSuppress.xFun HuMoLipsyncSuppress.xOnes) 0 0 := by
  have hsm : ∀ c, HuMoLipsyncSuppress.smoothStage
      HuMoLipsyncSuppress.cfgBlendBack.ema_beta 1
      (HuMoLipsyncSuppress.xFun HuMoLipsyncSuppress.xOnes) 0 0 c = 1 := by
    intro c
    unfold HuMoLipsyncSuppress.smoothStage
    rw [if_neg (by norm_num)]
    norm_num [HuMoLipsyncSuppress.xFun, HuMoLipsyncSuppress.xOnes]
  have hge : HuMoLipsyncSuppress.rmsEps ≤
      HuMoLipsyncSuppress.rmsRaw 1
        (HuMoLipsyncSuppress.gainStage HuMoLipsyncSuppress.cfgBlendBack.gains
          (HuMoLipsyncSuppress.smoothStage
            HuMoLipsyncSuppress.cfgBlendBack.ema_beta 1
            (HuMoLipsyncSuppress.xFun HuMoLipsyncSuppress.xOnes))) 0 0 := by
    unfold HuMoLipsyncSuppress.rmsRaw HuMoLipsyncSuppress.gainStage
    rw [Finset.sum_range_one, hsm 0]
    have h16 : Real.sqrt ((1 * ([(4 : ℝ), 4, 0.5, 0.01, 0.01].getD 0 0)) ^ 2
        / (1 : ℕ)) = 4 := by
      norm_num
      rw [show (16 : ℝ) = 4 ^ 2 by norm_num,
        Real.sqrt_sq (by norm_num : (0 : ℝ) ≤ 4)]
    calc HuMoLipsyncSuppress.rmsEps ≤ 4 := by
          norm_num [HuMoLipsyncSuppress.rmsEps]
      _ = _ := by rw [← h16]; norm_num [HuMoLipsyncSuppress.cfgBlendBack]
  have hfe : HuMoLipsyncSuppress.rmsEps ≤
      HuMoLipsyncSuppress.rmsRaw 1
        (HuMoLipsyncSuppress.xFun HuMoLipsyncSuppress.xOnes) 0 0 := by
    unfold HuMoLipsyncSuppress.rmsRaw
    rw [Finset.sum_range_one]
    norm_num [HuMoLipsyncSuppress.xFun, HuMoLipsyncSuppress.xOnes,
      HuMoLipsyncSuppress.rmsEps]
  exact ⟨rfl, hge, hfe,
    rms_preservation_amended HuMoLipsyncSuppress.cfgBlendBack 1 1
      (HuMoLipsyncSuppress.xFun HuMoLipsyncSuppress.xOnes) 0 0 rfl hge hfe⟩

/-- C6: inverting the gate negates its output. -/
theorem analyze_invert_negates
    (audio : HuMoAudioThresholdSwitcher.Audio) (threshold : ℝ) :
    HuMoAudioThresholdSwitcher.analyze audio threshold true =
      (HuMoAudioThresholdSwitcher.analyze audio threshold false).map
        (fun b => !b) := by
  rcases h : HuMoAudioThresholdSwitcher.convertToTensor audio with e | xs <;>
    simp [HuMoAudioThresholdSwitcher.analyze, h, Except.map]

/-- C7: the empty buffer's RMS is treated as exactly `0.0`, and a
constant-zero buffer of any nonzero length is classified as silent for
every positive threshold. -/
theorem zero_buffer_silent (n : ℕ) (threshold : ℝ)
    (hn : 0 < n) (ht : 0 < threshold) :
    HuMoAudioThresholdSwitcher.calculateRMS [] = 0 ∧
      HuMoAudioThresholdSwitcher.analyze
        (HuMoAudioThresholdSwitcher.Audio.tens (List.replicate n (0 : ℝ)))
        threshold false = .ok true := by
  constructor
  · simp [HuMoAudioThresholdSwitcher.calculateRMS]
  · have hne : List.replicate n (0 : ℝ) ≠ [] := by
      simp [List.replicate_eq_nil_iff]
      omega
    have hrms : HuMoAudioThresholdSwitcher.calculateRMS
        (List.replicate n (0 : ℝ)) = 0 := by
      simp [HuMoAudioThresholdSwitcher.calculateRMS, hne]
    simp [HuMoAudioThresholdSwitcher.analyze,
      HuMoAudioThresholdSwitcher.convertToTensor, hrms, ht]

/-- Witness for C7 at `n = 3`, `threshold = 1/100` (the spec's examples). -/
theorem zero_buffer_silent_witness :
    0 < 3 ∧ (0 : ℝ) < 1 / 100 ∧
      (HuMoAudioThresholdSwitcher.calculateRMS [] = 0 ∧
        HuMoAudioThresholdSwitcher.analyze
          (HuMoAudioThresholdSwitcher.Audio.tens
            (List.replicate 3 (0 : ℝ))) (1 / 100) false = .ok true) :=
  ⟨by norm_num, by norm_num, zero_buffer_silent 3 (1 / 100) (by norm_num) (by norm_num)⟩
